import Mathlib

/-!
Verification of the yajler NIF JSON decoder (`c_src/yajler_nif.c`).

The C file implements an incremental tree builder driven by yajl parse
events.  We embed the builder shallowly:

* `Term` models `ERL_NIF_TERM` values as produced by the builder
  (`enif_make_atom`, `enif_make_long`, `enif_make_double`,
  `enif_make_binary`, `enif_make_tuple2`, `enif_make_list_from_array`).
* `container_t` models the C struct of the same name; the `next` pointer
  chain of open containers is modelled as a `List container_t` with the
  innermost container at the head (the synthetic root frame is last).
* Each yajl callback (`handle_null`, ..., `handle_end`) is translated
  directly from the source.  Callbacks whose C body calls a fallible
  allocator take the allocation outcome as an explicit `Bool` argument;
  where the C code ignores the allocator's result, the model ignores the
  argument in the same way.
* `runEvents` models yajl delivering a sequence of events to the
  callbacks, stopping when a callback cancels (returns 0).  `none`
  marks event sequences on which the C code would dereference a null
  `st->c` (a correct event source never produces them).
-/

set_option linter.unusedVariables false

namespace Yajler

/-- Model of `ERL_NIF_TERM` values built by the decoder.  Doubles are
carried as an opaque bit payload: the builder never computes with them. -/
inductive Term where
  | atom : String → Term
  | int : Int → Term
  | dbl : Nat → Term
  | bin : List Nat → Term
  | tuple2 : Term → Term → Term
  | list : List Term → Term

/-- Junk value standing for uninitialized memory in a freshly allocated
(or reallocated) element array.  The builder never reads such slots on
event sequences produced by a correct event source. -/
def junkTerm : Term := Term.atom "uninitialized"

/-- `container_t` from the source: element count, size of the elements
array, the elements array itself, and the flag telling whether the last
stored term was a map key.  The `next` link is represented by list
structure, not by a field. -/
structure container_t where
  count : Nat
  arraysz : Nat
  array : List Term
  key : Bool

/-- The chain of open containers reachable from `state_t.c`, innermost
first; the synthetic root frame of `decode_1` is the last entry. -/
abbrev Stack := List container_t

/-- The ten yajl callback events (`yajl_callbacks`), with the payload
each callback receives.  String payloads are the declared bytes of the
event (`stringVal[0..stringLen)`). -/
inductive Event where
  | null : Event
  | bool : Bool → Event
  | integer : Int → Event
  | double : Nat → Event
  | string : List Nat → Event
  | mapKey : List Nat → Event
  | startMap : Event
  | endMap : Event
  | startArray : Event
  | endArray : Event
deriving DecidableEq

/-- Effect of `strncpy(dst, src, n)` on a destination buffer of `n`
bytes when `src` holds the `n` declared payload bytes: bytes are copied
up to and including nothing past the first zero byte, and the remainder
of the destination is filled with zero bytes.  This is the copy routine
used by `handle_string` and `handle_map_key`. -/
def strncpyBytes : List Nat → List Nat
  | [] => []
  | b :: bs => if b = 0 then List.replicate (bs.length + 1) 0 else b :: strncpyBytes bs

/-- The growth step at the top of `add_element`: if the container is
full (`count >= arraysz`), double `arraysz` and reallocate the elements
array at the doubled size (`enif_realloc` keeps the old contents and
leaves the newly acquired slots uninitialized; the source does not
check its result). -/
def growFrame (c : container_t) : container_t :=
  if c.arraysz ≤ c.count then
    { c with arraysz := c.arraysz * 2,
             array := (c.array ++ List.replicate (c.arraysz * 2) junkTerm).take
                        (c.arraysz * 2) }
  else c

/-- `add_element` from the source.  After the growth step, if the last
stored term was a key, the slot at `count-1` is replaced in place by the
2-tuple of that slot and the new term without growing `count`;
otherwise the term is stored in slot `count` and `count` is
incremented.  A null `st->c` (empty stack) makes the call a no-op. -/
def add_element (stack : Stack) (t : Term) : Stack :=
  match stack with
  | [] => []
  | c :: rest =>
    let c := growFrame c
    if c.key then
      { c with
          array := c.array.set (c.count - 1)
                     (Term.tuple2 (c.array.getD (c.count - 1) junkTerm) t),
          key := false } :: rest
    else
      { c with array := c.array.set c.count t, count := c.count + 1 } :: rest

/-- `handle_null`: adds the atom `undefined`. -/
def handle_null (stack : Stack) : Int × Stack :=
  (1, add_element stack (Term.atom "undefined"))

/-- `handle_boolean`: adds the atom `true` or `false`. -/
def handle_boolean (b : Bool) (stack : Stack) : Int × Stack :=
  (1, add_element stack (Term.atom (if b then "true" else "false")))

/-- `handle_integer`: adds the integer value. -/
def handle_integer (i : Int) (stack : Stack) : Int × Stack :=
  (1, add_element stack (Term.int i))

/-- `handle_double`: adds the double value. -/
def handle_double (d : Nat) (stack : Stack) : Int × Stack :=
  (1, add_element stack (Term.dbl d))

/-- `handle_string`: allocates a binary of the declared length and, if
that allocation succeeds, copies the payload with `strncpy` and adds
the binary; if the allocation fails it returns 0 without touching the
stack.  This is the only callback that checks an allocation. -/
def handle_string (s : List Nat) (allocOk : Bool) (stack : Stack) : Int × Stack :=
  if allocOk then (1, add_element stack (Term.bin (strncpyBytes s))) else (0, stack)

/-- `handle_map_key`: allocates a binary (the result of
`enif_alloc_binary` is not checked by the source, so `allocOk` is
ignored), copies the payload with `strncpy`, adds the binary, then sets
the innermost container's `key` flag.  Dereferencing `st->c` when the
stack is empty would be a null dereference, modelled as `none`. -/
def handle_map_key (s : List Nat) (allocOk : Bool) (stack : Stack) : Option (Int × Stack) :=
  match add_element stack (Term.bin (strncpyBytes s)) with
  | [] => none
  | c :: rest => some (1, { c with key := true } :: rest)

/-- The container initialized by `handle_start`: `count = 0`,
`arraysz = 16` (the initial term buffer size), a fresh 16-slot array
and a clear `key` flag. -/
def startFrame : container_t :=
  { count := 0, arraysz := 16, array := List.replicate 16 junkTerm, key := false }

/-- `handle_start` (shared body of `handle_start_map` and
`handle_start_array`): links a new, freshly initialized container in
front of the chain.  Neither the container allocation nor the array
allocation is checked by the source, so both outcomes are ignored and
the callback returns 1. -/
def handle_start (frameAllocOk arrayAllocOk : Bool) (stack : Stack) : Int × Stack :=
  (1, startFrame :: stack)

/-- `handle_end` (shared body of `handle_end_map` and
`handle_end_array`): unlinks the innermost container, builds the list
of its first `count` elements and adds it to the parent, then frees the
popped container.  The `key` flag of the popped container is not
inspected.  An empty stack would be a null dereference (`none`). -/
def handle_end (stack : Stack) : Option (Int × Stack) :=
  match stack with
  | [] => none
  | c :: rest => some (1, add_element rest (Term.list (c.array.take c.count)))

/-- `handle_start_map` forwards to `handle_start`. -/
def handle_start_map (stack : Stack) : Int × Stack :=
  handle_start true true stack

/-- `handle_start_array` forwards to `handle_start`. -/
def handle_start_array (stack : Stack) : Int × Stack :=
  handle_start true true stack

/-- `handle_end_map` forwards to `handle_end`. -/
def handle_end_map (stack : Stack) : Option (Int × Stack) :=
  handle_end stack

/-- `handle_end_array` forwards to `handle_end`. -/
def handle_end_array (stack : Stack) : Option (Int × Stack) :=
  handle_end stack

/-- Dispatch of one yajl event to its callback (the `yajl_callbacks`
table), in the run where every allocation succeeds. -/
def stepEvent (stack : Stack) : Event → Option (Int × Stack)
  | Event.null => some (handle_null stack)
  | Event.bool b => some (handle_boolean b stack)
  | Event.integer i => some (handle_integer i stack)
  | Event.double d => some (handle_double d stack)
  | Event.string s => some (handle_string s true stack)
  | Event.mapKey s => handle_map_key s true stack
  | Event.startMap => some (handle_start_map stack)
  | Event.startArray => some (handle_start_array stack)
  | Event.endMap => handle_end_map stack
  | Event.endArray => handle_end_array stack

/-- yajl delivering a sequence of events to the callbacks.  A callback
returning 0 cancels the parse (not reached when allocations succeed);
`none` propagates undefined behaviour. -/
def runEvents (stack : Stack) : List Event → Option Stack
  | [] => some stack
  | e :: es =>
    match stepEvent stack e with
    | none => none
    | some (rc, stack') => if rc = 0 then none else runEvents stack' es

/-- The synthetic root frame set up by `decode_1`:
`container_t c = { 0, 1, &term, 0, NULL }` — one uninitialized slot,
capacity 1, clear `key` flag. -/
def initRoot : container_t :=
  { count := 0, arraysz := 1, array := [junkTerm], key := false }

/-- The container stack at the start of a decode: just the root frame. -/
def initStack : Stack := [initRoot]

/-- The root (last) frame of a stack; total with the fresh root as
default, matching the fact that `decode_1`'s root frame is a local
variable that always exists. -/
def rootOf (stack : Stack) : container_t := stack.getLastD initRoot

/-- Result value of a successful decode: the content of the root
frame's single slot (`decode_1` returns `{ok, term}`). -/
def decodeEvents (evs : List Event) : Option Term :=
  (runEvents initStack evs).map fun st => (rootOf st).array.getD 0 junkTerm

/-- `ERR_BUF_SIZE` from the source. -/
def ERR_BUF_SIZE : Nat := 256

/-- Effect of `strncpy(st->errmsg, msg, ERR_BUF_SIZE-1)` followed by
forcing a terminating zero at index `ERR_BUF_SIZE-1`: the stored C
string is the message up to its own terminator, truncated to
`ERR_BUF_SIZE - 1` bytes. -/
def errTrunc (msg : List Nat) : List Nat :=
  (msg.takeWhile (fun b => b ≠ 0)).take (ERR_BUF_SIZE - 1)

/-- `cleanup_containers` from the source: walks the container chain and
frees each container and its array while `c->next` is non-null, i.e. it
releases every frame except the last (the synthetic root).  The model
returns the list of frames released, in release order. -/
def cleanup_containers : Stack → Stack
  | [] => []
  | [c] => []
  | c :: rest => c :: cleanup_containers rest

/-- Outcome of the external event source (`yajl_parse` +
`yajl_complete_parse`) on one buffer: the events it delivered to the
callbacks, and `some msg` when the final status was not
`yajl_status_ok` (`msg` being the `yajl_get_error` string). -/
structure SrcRun where
  events : List Event
  errMsg : Option (List Nat)

/-- Result of `parse_json`: success leaves the final container stack in
the state; failure records the truncated error message and the frames
released by `cleanup_containers`. -/
inductive ParseOut where
  | ok : Stack → ParseOut
  | err : List Nat → Stack → ParseOut

/-- `parse_json` from the source, given the event source's behaviour on
the buffer: run the delivered events over the callbacks; on a non-ok
status copy the truncated error message into `errmsg` and release all
container frames but the root. -/
def parse_json (r : SrcRun) : Option ParseOut :=
  match runEvents initStack r.events with
  | none => none
  | some st =>
    match r.errMsg with
    | none => some (ParseOut.ok st)
    | some m => some (ParseOut.err (errTrunc m) (cleanup_containers st))

/-- An Erlang argument term as seen by `decode_1`: a binary (with its
bytes) or any non-binary term. -/
inductive ErlArg where
  | bin : List Nat → ErlArg
  | nonbin : ErlArg

/-- What `decode_1` returns to the caller. -/
inductive DecodeResult where
  | badarg : DecodeResult
  | ok : Term → DecodeResult
  | error : List Nat → DecodeResult

/-- `decode_1` from the source, with the external event source passed
explicitly: reject calls that are not a single binary with `badarg`
(before any parsing); otherwise parse and return `{ok, term}` with the
root slot, or `{error, msg}`. -/
def decode_1 (args : List ErlArg) (src : List Nat → SrcRun) : Option DecodeResult :=
  match args with
  | [ErlArg.bin b] =>
    match parse_json (src b) with
    | none => none
    | some (ParseOut.ok st) => some (DecodeResult.ok ((rootOf st).array.getD 0 junkTerm))
    | some (ParseOut.err m _) => some (DecodeResult.error m)
  | _ => some DecodeResult.badarg

/-- Per-frame well-formedness: the array has exactly `arraysz` slots,
`count` never exceeds the capacity, the capacity is positive, and a set
`key` flag guarantees at least one stored element (the pending key). -/
abbrev CInv (c : container_t) : Prop :=
  c.array.length = c.arraysz ∧ c.count ≤ c.arraysz ∧ 1 ≤ c.arraysz ∧
    (c.key = true → 1 ≤ c.count)

/-- Stack-wide invariant: every open frame is well-formed. -/
abbrev SInv (stack : Stack) : Prop := ∀ c ∈ stack, CInv c

/-- The initialized elements of a frame (`array[0..count)`). -/
def felems (c : container_t) : List Term := c.array.take c.count

/-- `IsStart p l` : `p` is an initial segment of `l` (the events
delivered so far at some moment of the parse). -/
def IsStart (p l : List α) : Prop := ∃ r, p ++ r = l

/-- Event sequences a correct event source emits for one JSON value,
indexed by the term the builder assembles from them: scalars are single
events; an array is its elements' sequences between `start`/`end`
markers; an object alternates `mapKey` events with the value sequences.
The associated term records the builder's value mapping (strings pass
through `strncpyBytes`, object entries become 2-tuples). -/
inductive VE : List Event → Term → Prop where
  | null : VE [Event.null] (Term.atom "undefined")
  | boolT : VE [Event.bool true] (Term.atom "true")
  | boolF : VE [Event.bool false] (Term.atom "false")
  | int (i : Int) : VE [Event.integer i] (Term.int i)
  | dbl (d : Nat) : VE [Event.double d] (Term.dbl d)
  | str (s : List Nat) : VE [Event.string s] (Term.bin (strncpyBytes s))
  | arr (l : List (List Event × Term)) :
      (∀ p ∈ l, VE p.1 p.2) →
      VE (Event.startArray :: l.flatMap Prod.fst ++ [Event.endArray])
        (Term.list (l.map Prod.snd))
  | obj (l : List (List Nat × List Event × Term)) :
      (∀ p ∈ l, VE p.2.1 p.2.2) →
      VE (Event.startMap :: (l.flatMap fun p => Event.mapKey p.1 :: p.2.1) ++
            [Event.endMap])
        (Term.list (l.map fun p =>
          Term.tuple2 (Term.bin (strncpyBytes p.1)) p.2.2))

/-- Events of a flat JSON object whose values are integers, as emitted
by the event source in document order. -/
def objDoc (ps : List (List Nat × Int)) : List Event :=
  Event.startMap ::
    (ps.flatMap fun p => [Event.mapKey p.1, Event.integer p.2]) ++ [Event.endMap]

/-- The builder's entry for one key/value pair of an object. -/
def pairTerm (k : List Nat) (v : Term) : Term :=
  Term.tuple2 (Term.bin (strncpyBytes k)) v

/-- The builder's entries for a flat integer-valued object. -/
def objEntries (ps : List (List Nat × Int)) : List Term :=
  ps.map fun p => pairTerm p.1 (Term.int p.2)

/-- The events the source emits for a run of integer-valued object
entries (one `mapKey` followed by one `integer` per entry). -/
def intEntryEvents (ps : List (List Nat × Int)) : List Event :=
  ps.flatMap fun p => [Event.mapKey p.1, Event.integer p.2]

/-- The object-body chunks (key, value events, value term) of a run of
integer-valued entries. -/
def intEntryChunks (ps : List (List Nat × Int)) : List (List Nat × List Event × Term) :=
  ps.map fun p => (p.1, ([Event.integer p.2], Term.int p.2))

/-! ### List helper lemmas -/

theorem take_set_succ (l : List α) (n : Nat) (a : α) (h : n < l.length) :
    (l.set n a).take (n + 1) = l.take n ++ [a] := by
  rw [List.take_succ, List.set_take, List.set_eq_of_length_le (by simp [Nat.min_le_left]),
    List.getElem?_set_self h]
  rfl

theorem getD_of_take_eq {l l' : List α} {n i : Nat} (h : l.take n = l'.take n)
    (hi : i < n) (d : α) : l.getD i d = l'.getD i d := by
  have h1 : l[i]? = l'[i]? := by
    rw [← List.getElem?_take_of_lt (l := l) hi, ← List.getElem?_take_of_lt (l := l') hi, h]
  simp [List.getD_eq_getElem?_getD, h1]

theorem getLastD_append_singleton (l : List α) (a d : α) :
    (l ++ [a]).getLastD d = a := by
  simp [List.getLastD_concat]

/-! ### Frame-level lemmas about the growth step and `add_element` -/

theorem growFrame_count (c : container_t) : (growFrame c).count = c.count := by
  unfold growFrame; split <;> rfl

theorem growFrame_key (c : container_t) : (growFrame c).key = c.key := by
  unfold growFrame; split <;> rfl

theorem growFrame_arraysz (c : container_t) :
    (growFrame c).arraysz = if c.arraysz ≤ c.count then c.arraysz * 2 else c.arraysz := by
  unfold growFrame; split <;> simp_all

theorem growFrame_length (c : container_t) (h : CInv c) :
    (growFrame c).array.length = (growFrame c).arraysz := by
  obtain ⟨h1, h2, h3, h4⟩ := h
  unfold growFrame; split
  · show ((c.array ++ List.replicate (c.arraysz * 2) junkTerm).take (c.arraysz * 2)).length =
      c.arraysz * 2
    simp only [List.length_take, List.length_append, List.length_replicate, h1]
    omega
  · exact h1

theorem growFrame_lt (c : container_t) (h : CInv c) :
    c.count < (growFrame c).arraysz := by
  obtain ⟨h1, h2, h3, h4⟩ := h
  unfold growFrame; split
  · show c.count < c.arraysz * 2
    omega
  · show c.count < c.arraysz
    omega

theorem growFrame_take (c : container_t) (h : CInv c) :
    (growFrame c).array.take c.count = c.array.take c.count := by
  obtain ⟨h1, h2, h3, h4⟩ := h
  unfold growFrame; split
  · rename_i hfull
    rw [List.take_take, Nat.min_eq_left (by omega),
      List.take_append_of_le_length (by omega)]
  · rfl

/-- Appending into a frame whose `key` flag is clear: the term lands in
a fresh slot, the count goes up by one, the initialized elements are
extended by exactly the new term, and the capacity doubles exactly when
the frame was full. -/
theorem add_element_app (c : container_t) (rest : Stack) (t : Term)
    (h : CInv c) (hk : c.key = false) :
    ∃ c', add_element (c :: rest) t = c' :: rest ∧ c'.key = false ∧
      c'.count = c.count + 1 ∧ felems c' = felems c ++ [t] ∧ CInv c' ∧
      c'.arraysz = (if c.arraysz ≤ c.count then c.arraysz * 2 else c.arraysz) := by
  have hg := growFrame_key c
  have hgc := growFrame_count c
  have hgl := growFrame_length c h
  have hglt := growFrame_lt c h
  have hgt := growFrame_take c h
  have hpos : 1 ≤ c.arraysz := h.2.2.1
  refine ⟨{ growFrame c with
            array := ((growFrame c).array.set (growFrame c).count t),
            count := ((growFrame c).count + 1) }, ?_, ?_, ?_, ?_, ?_, ?_⟩
  · simp only [add_element]
    rw [hg, hk]
    simp
  · simpa using hg.trans hk
  · simp [hgc]
  · show ((growFrame c).array.set (growFrame c).count t).take ((growFrame c).count + 1) =
      felems c ++ [t]
    rw [hgc, take_set_succ _ _ _ (by omega), hgt]; rfl
  · refine ⟨?_, ?_, ?_, ?_⟩
    · simp only [List.length_set]
      exact hgl
    · simp [hgc]
      omega
    · simp only
      omega
    · intro _
      simp [hgc]
  · simp [growFrame_arraysz]

/-- Appending into a frame whose `key` flag is set: the slot at
`count - 1` (the pending key) is replaced in place by the 2-tuple of
its old content and the new term; the count is unchanged and the flag
is cleared. -/
theorem add_element_fuse (c : container_t) (rest : Stack) (t : Term)
    (h : CInv c) (hk : c.key = true) :
    ∃ c', add_element (c :: rest) t = c' :: rest ∧ c'.key = false ∧
      c'.count = c.count ∧
      felems c' = c.array.take (c.count - 1) ++
        [Term.tuple2 (c.array.getD (c.count - 1) junkTerm) t] ∧ CInv c' ∧
      c'.arraysz = (if c.arraysz ≤ c.count then c.arraysz * 2 else c.arraysz) := by
  have hpos : 1 ≤ c.count := h.2.2.2 hk
  have hg := growFrame_key c
  have hgc := growFrame_count c
  have hgl := growFrame_length c h
  have hglt := growFrame_lt c h
  have hgt := growFrame_take c h
  have hget : (growFrame c).array.getD (c.count - 1) junkTerm =
      c.array.getD (c.count - 1) junkTerm :=
    getD_of_take_eq hgt (by omega) junkTerm
  have hszpos : 1 ≤ c.arraysz := h.2.2.1
  refine ⟨{ growFrame c with
            array := ((growFrame c).array.set ((growFrame c).count - 1)
              (Term.tuple2 ((growFrame c).array.getD ((growFrame c).count - 1) junkTerm) t)),
            key := false }, ?_, ?_, ?_, ?_, ?_, ?_⟩
  · simp only [add_element]
    rw [hg, hk]
    simp
  · rfl
  · simp [hgc]
  · show ((growFrame c).array.set ((growFrame c).count - 1)
        (Term.tuple2 ((growFrame c).array.getD ((growFrame c).count - 1) junkTerm) t)).take
          (growFrame c).count = _
    rw [hgc, hget]
    have hts := take_set_succ (growFrame c).array (c.count - 1)
        (Term.tuple2 (c.array.getD (c.count - 1) junkTerm) t) (by omega)
    rw [show c.count - 1 + 1 = c.count by omega] at hts
    rw [hts]
    congr 1
    calc List.take (c.count - 1) (growFrame c).array
        = List.take (c.count - 1) (List.take c.count (growFrame c).array) := by
          rw [List.take_take, Nat.min_eq_left (by omega)]
      _ = List.take (c.count - 1) (List.take c.count c.array) := by rw [hgt]
      _ = List.take (c.count - 1) c.array := by
          rw [List.take_take, Nat.min_eq_left (by omega)]
  · refine ⟨?_, ?_, ?_, ?_⟩
    · simp only [List.length_set]
      exact hgl
    · simp [hgc]
      omega
    · simp only
      omega
    · intro hkey
      simp at hkey
  · simp [growFrame_arraysz]

/-- `add_element` preserves the stack invariant. -/
theorem SInv_add_element {stack : Stack} (h : SInv stack) (t : Term) :
    SInv (add_element stack t) := by
  match stack with
  | [] => simpa [add_element] using h
  | c :: rest =>
    have hc : CInv c := h c (by simp)
    have hrest : ∀ x ∈ rest, CInv x := fun x hx => h x (by simp [hx])
    cases hk : c.key with
    | false =>
      obtain ⟨c', heq, _, _, _, hInv, _⟩ := add_element_app c rest t hc hk
      rw [heq]
      intro x hx
      rcases List.mem_cons.mp hx with rfl | hx
      · exact hInv
      · exact hrest x hx
    | true =>
      obtain ⟨c', heq, _, _, _, hInv, _⟩ := add_element_fuse c rest t hc hk
      rw [heq]
      intro x hx
      rcases List.mem_cons.mp hx with rfl | hx
      · exact hInv
      · exact hrest x hx

/-- The initialized element list has exactly `count` entries. -/
theorem felems_length (c : container_t) (h : CInv c) : (felems c).length = c.count := by
  obtain ⟨h1, h2, h3, h4⟩ := h
  simp only [felems, List.length_take]
  omega

/-- The fresh frame linked by `handle_start` is well-formed. -/
theorem CInv_startFrame : CInv startFrame := by
  refine ⟨by simp [startFrame], by simp [startFrame], by simp [startFrame],
    by simp [startFrame]⟩

/-- The head frame after a (non-vacuous) `add_element` holds at least
one element. -/
theorem add_element_head_pos {st : Stack} (h : SInv st) (t : Term) {c : container_t}
    {rest : Stack} (heq : add_element st t = c :: rest) : 1 ≤ c.count := by
  match st with
  | [] => simp [add_element] at heq
  | c0 :: rest0 =>
    have hc0 : CInv c0 := h c0 (by simp)
    cases hk : c0.key with
    | false =>
      obtain ⟨c', heq', _, hcount, _, _, _⟩ := add_element_app c0 rest0 t hc0 hk
      rw [heq'] at heq
      cases heq
      omega
    | true =>
      obtain ⟨c', heq', _, hcount, _, _, _⟩ := add_element_fuse c0 rest0 t hc0 hk
      rw [heq'] at heq
      cases heq
      have := hc0.2.2.2 hk
      omega

/-- Splitting a run over concatenated event lists. -/
theorem runEvents_append (a : List Event) :
    ∀ (st : Stack) (b : List Event),
      runEvents st (a ++ b) = (runEvents st a).bind fun st' => runEvents st' b := by
  induction a with
  | nil => intro st b; rfl
  | cons e es ih =>
    intro st b
    simp only [List.cons_append, runEvents]
    cases stepEvent st e with
    | none => rfl
    | some p =>
      obtain ⟨rc, st'⟩ := p
      by_cases hrc : rc = 0
      · simp [hrc]
      · simp [hrc, ih]

/-- Running one key/value pair of an object body: the `mapKey` event
appends the key binary and sets the flag, and the value's events fuse
the value onto that slot, leaving one finished entry. -/
theorem run_pair_obj (k : List Nat) (vev : List Event) (vt : Term)
    (hrun : ∀ st : Stack, SInv st → runEvents st vev = some (add_element st vt)) :
    ∀ (F : container_t) (rest : Stack), SInv (F :: rest) → F.key = false →
      ∃ F', runEvents (F :: rest) (Event.mapKey k :: vev) = some (F' :: rest) ∧
        F'.key = false ∧ CInv F' ∧ F'.count = F.count + 1 ∧
        felems F' = felems F ++ [pairTerm k vt] ∧ SInv (F' :: rest) := by
  intro F rest hst hk
  have hF : CInv F := hst F (by simp)
  have hrest : ∀ x ∈ rest, CInv x := fun x hx => hst x (by simp [hx])
  obtain ⟨F1, heq1, hk1, hcnt1, hel1, hInv1, _⟩ :=
    add_element_app F rest (Term.bin (strncpyBytes k)) hF hk
  have hlen1 : (felems F1).length = F1.count := felems_length F1 hInv1
  have hlenF : (felems F).length = F.count := felems_length F hF
  have hstep : stepEvent (F :: rest) (Event.mapKey k) =
      some (1, { F1 with key := true } :: rest) := by
    simp only [stepEvent, handle_map_key, heq1]
  have hInv1' : CInv ({ F1 with key := true }) := by
    refine ⟨hInv1.1, hInv1.2.1, hInv1.2.2.1, fun _ => ?_⟩
    simp only
    omega
  have hSInv1 : SInv ({ F1 with key := true } :: rest) := by
    intro x hx
    rcases List.mem_cons.mp hx with rfl | hx
    · exact hInv1'
    · exact hrest x hx
  obtain ⟨F2, heq2, hk2, hcnt2, hel2, hInv2, _⟩ :=
    add_element_fuse ({ F1 with key := true }) rest vt hInv1' rfl
  have hrun2 := hrun ({ F1 with key := true } :: rest) hSInv1
  rw [heq2] at hrun2
  refine ⟨F2, ?_, hk2, hInv2, ?_, ?_, ?_⟩
  · simp only [runEvents, hstep]
    simpa using hrun2
  · simp only at hcnt2
    omega
  · -- felems F2 rewrites to felems F ++ [pairTerm k vt]
    rw [hel2]
    simp only
    have htake : F1.array.take F1.count = felems F ++ [Term.bin (strncpyBytes k)] := hel1
    have hcm1 : F1.count - 1 = F.count := by omega
    have htk : F1.array.take (F1.count - 1) = felems F := by
      rw [hcm1]
      calc F1.array.take F.count
          = (F1.array.take F1.count).take F.count := by
            rw [List.take_take, Nat.min_eq_left (by omega)]
        _ = (felems F ++ [Term.bin (strncpyBytes k)]).take F.count := by rw [htake]
        _ = felems F := by
            rw [List.take_append_of_le_length (by omega), ← hlenF, List.take_length]
    have hgd : F1.array.getD (F1.count - 1) junkTerm = Term.bin (strncpyBytes k) := by
      have hlen' : (felems F ++ [Term.bin (strncpyBytes k)]).length = F1.count := by
        simp only [List.length_append, List.length_cons, List.length_nil]
        omega
      have h1 : F1.array.take F1.count =
          (felems F ++ [Term.bin (strncpyBytes k)]).take F1.count := by
        rw [htake, ← hlen', List.take_length]
      have h2 := getD_of_take_eq h1 (show F1.count - 1 < F1.count by omega) junkTerm
      rw [h2, List.getD_append_right _ _ _ _ (by omega)]
      have hz : F1.count - 1 - (felems F).length = 0 := by omega
      rw [hz]
      rfl
    rw [htk, hgd]
    rfl
  · intro x hx
    rcases List.mem_cons.mp hx with rfl | hx
    · exact hInv2
    · exact hrest x hx

/-- Running the concatenated event sequences of an array body appends
the element terms, in order, to the open frame. -/
theorem run_flat_arrF (l : List (List Event × Term))
    (hrun : ∀ p ∈ l, ∀ st : Stack, SInv st →
      runEvents st p.1 = some (add_element st p.2)) :
    ∀ (F : container_t) (rest : Stack), SInv (F :: rest) → F.key = false →
      ∃ F', runEvents (F :: rest) (l.flatMap Prod.fst) = some (F' :: rest) ∧
        F'.key = false ∧ CInv F' ∧ F'.count = F.count + l.length ∧
        felems F' = felems F ++ l.map Prod.snd ∧ SInv (F' :: rest) := by
  induction l with
  | nil =>
    intro F rest hst hk
    exact ⟨F, rfl, hk, hst F (by simp), by simp, by simp [felems], hst⟩
  | cons p ps ih =>
    intro F rest hst hk
    have hF : CInv F := hst F (by simp)
    have hrest : ∀ x ∈ rest, CInv x := fun x hx => hst x (by simp [hx])
    obtain ⟨F1, heq1, hk1, hcnt1, hel1, hInv1, _⟩ :=
      add_element_app F rest p.2 hF hk
    have hSInv1 : SInv (F1 :: rest) := by
      intro x hx
      rcases List.mem_cons.mp hx with rfl | hx
      · exact hInv1
      · exact hrest x hx
    obtain ⟨F', heq', hk', hInv', hcnt', hel', hS'⟩ :=
      ih (fun q hq => hrun q (by simp [hq])) F1 rest hSInv1 hk1
    refine ⟨F', ?_, hk', hInv', ?_, ?_, hS'⟩
    · rw [List.flatMap_cons, runEvents_append, hrun p (by simp) (F :: rest) hst, heq1]
      simpa using heq'
    · simp only [List.length_cons]
      omega
    · rw [hel', hel1]
      simp

/-- Running the interleaved key/value event sequences of an object body
appends the finished key/value pair entries, in order, to the open
frame. -/
theorem run_flat_obj (l : List (List Nat × List Event × Term))
    (hrun : ∀ p ∈ l, ∀ st : Stack, SInv st →
      runEvents st p.2.1 = some (add_element st p.2.2)) :
    ∀ (F : container_t) (rest : Stack), SInv (F :: rest) → F.key = false →
      ∃ F', runEvents (F :: rest) (l.flatMap fun p => Event.mapKey p.1 :: p.2.1) =
          some (F' :: rest) ∧
        F'.key = false ∧ CInv F' ∧ F'.count = F.count + l.length ∧
        felems F' = felems F ++ l.map (fun p => pairTerm p.1 p.2.2) ∧
        SInv (F' :: rest) := by
  induction l with
  | nil =>
    intro F rest hst hk
    exact ⟨F, rfl, hk, hst F (by simp), by simp, by simp [felems], hst⟩
  | cons p ps ih =>
    intro F rest hst hk
    obtain ⟨F1, heq1, hk1, hInv1, hcnt1, hel1, hS1⟩ :=
      run_pair_obj p.1 p.2.1 p.2.2 (hrun p (by simp)) F rest hst hk
    obtain ⟨F', heq', hk', hInv', hcnt', hel', hS'⟩ :=
      ih (fun q hq => hrun q (by simp [hq])) F1 rest hS1 hk1
    refine ⟨F', ?_, hk', hInv', ?_, ?_, hS'⟩
    · simp only [List.flatMap_cons]
      rw [runEvents_append, heq1]
      simpa using heq'
    · simp only [List.length_cons]
      omega
    · rw [hel', hel1]
      simp

/-- Master run lemma: the event sequence of one well-formed JSON value,
run from any well-formed container stack, succeeds and performs exactly
one `add_element` of the built term on that stack. -/
theorem ve_run {evs : List Event} {t : Term} (h : VE evs t) :
    ∀ st : Stack, SInv st → runEvents st evs = some (add_element st t) := by
  induction h with
  | null =>
    intro st hst
    simp [runEvents, stepEvent, handle_null]
  | boolT =>
    intro st hst
    simp [runEvents, stepEvent, handle_boolean]
  | boolF =>
    intro st hst
    simp [runEvents, stepEvent, handle_boolean]
  | int i =>
    intro st hst
    simp [runEvents, stepEvent, handle_integer]
  | dbl d =>
    intro st hst
    simp [runEvents, stepEvent, handle_double]
  | str s =>
    intro st hst
    simp [runEvents, stepEvent, handle_string]
  | arr l hl ih =>
    intro st hst
    have hS0 : SInv (startFrame :: st) := by
      intro x hx
      rcases List.mem_cons.mp hx with rfl | hx
      · exact CInv_startFrame
      · exact hst x hx
    obtain ⟨F', heqB, hk', hInv', hcnt', hel', hS'⟩ :=
      run_flat_arrF l ih startFrame st hS0 rfl
    have hfe : F'.array.take F'.count = l.map Prod.snd := by
      have h0 : felems F' = l.map Prod.snd := by
        rw [hel']
        rfl
      exact h0
    simp only [runEvents, stepEvent, handle_start_array, handle_start]
    rw [if_neg (by omega), List.append_eq, runEvents_append, heqB]
    simp only [Option.some_bind]
    simp only [runEvents, stepEvent, handle_end_array, handle_end]
    rw [if_neg (by omega), hfe]
  | obj l hl ih =>
    intro st hst
    have hS0 : SInv (startFrame :: st) := by
      intro x hx
      rcases List.mem_cons.mp hx with rfl | hx
      · exact CInv_startFrame
      · exact hst x hx
    obtain ⟨F', heqB, hk', hInv', hcnt', hel', hS'⟩ :=
      run_flat_obj l ih startFrame st hS0 rfl
    have hfe : F'.array.take F'.count =
        l.map fun p => Term.tuple2 (Term.bin (strncpyBytes p.1)) p.2.2 := by
      have h0 : felems F' = l.map fun p => pairTerm p.1 p.2.2 := by
        rw [hel']
        rfl
      rw [show (felems F' : List Term) = F'.array.take F'.count from rfl] at h0
      rw [h0]
      simp [pairTerm]
    simp only [runEvents, stepEvent, handle_start_map, handle_start]
    rw [if_neg (by omega), List.append_eq, runEvents_append, heqB]
    simp only [Option.some_bind]
    simp only [runEvents, stepEvent, handle_end_map, handle_end]
    rw [if_neg (by omega), hfe]

/-- The initial stack (just the synthetic root frame) is well-formed. -/
theorem SInv_initStack : SInv initStack := by
  intro c hc
  simp only [initStack, List.mem_singleton] at hc
  subst hc
  refine ⟨by simp [initRoot], by simp [initRoot], by simp [initRoot], by simp [initRoot]⟩

/-- Decode correctness on well-formed event sequences: the builder
returns exactly the term associated to the sequence. -/
theorem decode_correct {evs : List Event} {t : Term} (h : VE evs t) :
    decodeEvents evs = some t := by
  have hr := ve_run h initStack SInv_initStack
  unfold decodeEvents
  rw [hr]
  rfl

/-- Event sequences of well-formed values are never empty. -/
theorem ve_ne {evs : List Event} {t : Term} (h : VE evs t) : evs ≠ [] := by
  cases h <;> simp

/-- Every callback dispatched by `stepEvent` preserves the stack
invariant. -/
theorem SInv_step {st : Stack} (h : SInv st) :
    ∀ (e : Event) (rc : Int) (st' : Stack), stepEvent st e = some (rc, st') → SInv st' := by
  intro e rc st' heq
  cases e with
  | null =>
    simp only [stepEvent, handle_null, Option.some.injEq, Prod.mk.injEq] at heq
    rw [← heq.2]
    exact SInv_add_element h _
  | bool b =>
    simp only [stepEvent, handle_boolean, Option.some.injEq, Prod.mk.injEq] at heq
    rw [← heq.2]
    exact SInv_add_element h _
  | integer i =>
    simp only [stepEvent, handle_integer, Option.some.injEq, Prod.mk.injEq] at heq
    rw [← heq.2]
    exact SInv_add_element h _
  | double d =>
    simp only [stepEvent, handle_double, Option.some.injEq, Prod.mk.injEq] at heq
    rw [← heq.2]
    exact SInv_add_element h _
  | string s =>
    simp only [stepEvent, handle_string, if_true, Option.some.injEq, Prod.mk.injEq] at heq
    rw [← heq.2]
    exact SInv_add_element h _
  | mapKey s =>
    cases hM : add_element st (Term.bin (strncpyBytes s)) with
    | nil => simp [stepEvent, handle_map_key, hM] at heq
    | cons c rest =>
      simp only [stepEvent, handle_map_key, hM, Option.some.injEq, Prod.mk.injEq] at heq
      rw [← heq.2]
      have hadd : SInv (c :: rest) := by
        rw [← hM]
        exact SInv_add_element h _
      have hpos : 1 ≤ c.count := add_element_head_pos h _ hM
      intro x hx
      rcases List.mem_cons.mp hx with rfl | hx
      · have hc := hadd c (by simp)
        exact ⟨hc.1, hc.2.1, hc.2.2.1, fun _ => hpos⟩
      · exact hadd x (by simp [hx])
  | startMap =>
    simp only [stepEvent, handle_start_map, handle_start, Option.some.injEq,
      Prod.mk.injEq] at heq
    rw [← heq.2]
    intro x hx
    rcases List.mem_cons.mp hx with rfl | hx
    · exact CInv_startFrame
    · exact h x hx
  | startArray =>
    simp only [stepEvent, handle_start_array, handle_start, Option.some.injEq,
      Prod.mk.injEq] at heq
    rw [← heq.2]
    intro x hx
    rcases List.mem_cons.mp hx with rfl | hx
    · exact CInv_startFrame
    · exact h x hx
  | endMap =>
    cases st with
    | nil => simp [stepEvent, handle_end_map, handle_end] at heq
    | cons c rest =>
      simp only [stepEvent, handle_end_map, handle_end, Option.some.injEq,
        Prod.mk.injEq] at heq
      rw [← heq.2]
      exact SInv_add_element (fun x hx => h x (by simp [hx])) _
  | endArray =>
    cases st with
    | nil => simp [stepEvent, handle_end_array, handle_end] at heq
    | cons c rest =>
      simp only [stepEvent, handle_end_array, handle_end, Option.some.injEq,
        Prod.mk.injEq] at heq
      rw [← heq.2]
      exact SInv_add_element (fun x hx => h x (by simp [hx])) _

/-! ### Initial-segment reasoning for partially delivered event streams -/

theorem isStart_nil (l : List α) : IsStart [] l := ⟨l, rfl⟩

theorem isStart_refl (l : List α) : IsStart l l := ⟨[], by simp⟩

theorem isStart_cons_elim {p l : List α} {a : α} (h : IsStart p (a :: l)) :
    p = [] ∨ ∃ q, p = a :: q ∧ IsStart q l := by
  obtain ⟨r, hr⟩ := h
  cases p with
  | nil => exact Or.inl rfl
  | cons x q =>
    right
    rw [List.cons_append] at hr
    injection hr with h1 h2
    subst h1
    exact ⟨q, rfl, ⟨r, h2⟩⟩

theorem isStart_singleton {p : List α} {a : α} (h : IsStart p [a]) :
    p = [] ∨ p = [a] := by
  rcases isStart_cons_elim h with rfl | ⟨q, rfl, hq⟩
  · exact Or.inl rfl
  · obtain ⟨r, hr⟩ := hq
    rcases List.append_eq_nil.mp hr with ⟨rfl, rfl⟩
    exact Or.inr rfl

theorem isStart_append_elim {p a b : List α} (h : IsStart p (a ++ b)) :
    IsStart p a ∨ ∃ q, p = a ++ q ∧ IsStart q b := by
  induction a generalizing p with
  | nil => exact Or.inr ⟨p, by simp, by simpa using h⟩
  | cons x a' ih =>
    rcases isStart_cons_elim h with rfl | ⟨q, rfl, hq⟩
    · exact Or.inl (isStart_nil _)
    · rcases ih hq with h1 | ⟨q', rfl, hq'⟩
      · obtain ⟨r, hr⟩ := h1
        exact Or.inl ⟨r, by simp [hr]⟩
      · exact Or.inr ⟨q', by simp, hq'⟩

theorem isStart_flatMap_elim {f : α → List β} :
    ∀ {l : List α} {p : List β}, (∀ x ∈ l, f x ≠ []) → IsStart p (l.flatMap f) →
      p = l.flatMap f ∨ ∃ l1 x l2 q, l = l1 ++ x :: l2 ∧ p = l1.flatMap f ++ q ∧
        IsStart q (f x) ∧ q ≠ f x := by
  intro l
  induction l with
  | nil =>
    intro p _ h
    obtain ⟨r, hr⟩ := h
    simp only [List.flatMap_nil] at hr ⊢
    exact Or.inl (List.append_eq_nil.mp hr).1
  | cons x xs ih =>
    intro p hne h
    simp only [List.flatMap_cons] at h
    rcases isStart_append_elim h with h1 | ⟨q, rfl, hq⟩
    · by_cases heq : p = f x
      · subst heq
        cases xs with
        | nil => exact Or.inl (by simp)
        | cons y ys =>
          right
          refine ⟨[x], y, ys, [], rfl, by simp, isStart_nil _, ?_⟩
          intro hc
          exact hne y (by simp) hc.symm
      · exact Or.inr ⟨[], x, xs, p, rfl, by simp, h1, heq⟩
    · rcases ih (fun z hz => hne z (by simp [hz])) hq with rfl |
        ⟨l1, x', l2, q', hl12, rfl, hq', hqne⟩
      · exact Or.inl (by simp)
      · right
        exact ⟨x :: l1, x', l2, q', by simp [hl12], by simp, hq', hqne⟩

/-- Partial-run lemma: while the event sequence of one well-formed
value is still incomplete, the run so far has only stacked new frames
on top of the starting stack — every frame of the starting stack,
including the synthetic root, is still present and untouched below. -/
theorem ve_run_upto {evs : List Event} {t : Term} (h : VE evs t) :
    ∀ st : Stack, SInv st → ∀ p, IsStart p evs → p ≠ evs →
      ∃ ex st', runEvents st p = some st' ∧ st' = ex ++ st ∧ SInv st' := by
  induction h with
  | null =>
    intro st hst p hp hne
    rcases isStart_singleton hp with rfl | rfl
    · exact ⟨[], st, rfl, rfl, hst⟩
    · exact absurd rfl hne
  | boolT =>
    intro st hst p hp hne
    rcases isStart_singleton hp with rfl | rfl
    · exact ⟨[], st, rfl, rfl, hst⟩
    · exact absurd rfl hne
  | boolF =>
    intro st hst p hp hne
    rcases isStart_singleton hp with rfl | rfl
    · exact ⟨[], st, rfl, rfl, hst⟩
    · exact absurd rfl hne
  | int i =>
    intro st hst p hp hne
    rcases isStart_singleton hp with rfl | rfl
    · exact ⟨[], st, rfl, rfl, hst⟩
    · exact absurd rfl hne
  | dbl d =>
    intro st hst p hp hne
    rcases isStart_singleton hp with rfl | rfl
    · exact ⟨[], st, rfl, rfl, hst⟩
    · exact absurd rfl hne
  | str s =>
    intro st hst p hp hne
    rcases isStart_singleton hp with rfl | rfl
    · exact ⟨[], st, rfl, rfl, hst⟩
    · exact absurd rfl hne
  | arr l hl ih =>
    intro st hst p hp hne
    rcases isStart_cons_elim hp with rfl | ⟨q, rfl, hq⟩
    · exact ⟨[], st, rfl, rfl, hst⟩
    have hqne : q ≠ l.flatMap Prod.fst ++ [Event.endArray] := fun hc => hne (by rw [hc]; rfl)
    have hS0 : SInv (startFrame :: st) := by
      intro x hx
      rcases List.mem_cons.mp hx with rfl | hx
      · exact CInv_startFrame
      · exact hst x hx
    have hstep1 : runEvents st (Event.startArray :: q) =
        runEvents (startFrame :: st) q := by
      simp only [runEvents, stepEvent, handle_start_array, handle_start]
      rw [if_neg (by omega)]
    have hnef : ∀ x ∈ l, Prod.fst x ≠ ([] : List Event) := fun x hx => ve_ne (hl x hx)
    rcases isStart_append_elim hq with hqf | ⟨q', rfl, hq'⟩
    · rcases isStart_flatMap_elim hnef hqf with rfl | ⟨l1, x, l2, r, hl12, rfl, hr, hrne⟩
      · obtain ⟨F', heqB, _, _, _, _, hS'⟩ :=
          run_flat_arrF l (fun z hz st0 h0 => ve_run (hl z hz) st0 h0) startFrame st hS0 rfl
        refine ⟨[F'], F' :: st, ?_, rfl, hS'⟩
        rw [hstep1, heqB]
      · obtain ⟨F1, heq1, hk1, hInv1, _, _, hS1⟩ :=
          run_flat_arrF l1 (fun z hz st0 h0 => ve_run (hl z (by simp [hl12, hz])) st0 h0)
            startFrame st hS0 rfl
        obtain ⟨ex', st', heq2, rfl, hS2⟩ :=
          ih x (by simp [hl12]) (F1 :: st) hS1 r hr hrne
        refine ⟨ex' ++ [F1], ex' ++ (F1 :: st), ?_, by simp, hS2⟩
        rw [hstep1, runEvents_append, heq1]
        simpa using heq2
    · rcases isStart_singleton hq' with rfl | rfl
      · obtain ⟨F', heqB, _, _, _, _, hS'⟩ :=
          run_flat_arrF l (fun z hz st0 h0 => ve_run (hl z hz) st0 h0) startFrame st hS0 rfl
        refine ⟨[F'], F' :: st, ?_, rfl, hS'⟩
        rw [hstep1, List.append_nil]
        exact heqB
      · exact absurd rfl hqne
  | obj l hl ih =>
    intro st hst p hp hne
    rcases isStart_cons_elim hp with rfl | ⟨q, rfl, hq⟩
    · exact ⟨[], st, rfl, rfl, hst⟩
    have hqne : q ≠ (l.flatMap fun z => Event.mapKey z.1 :: z.2.1) ++ [Event.endMap] :=
      fun hc => hne (by rw [hc]; rfl)
    have hS0 : SInv (startFrame :: st) := by
      intro x hx
      rcases List.mem_cons.mp hx with rfl | hx
      · exact CInv_startFrame
      · exact hst x hx
    have hstep1 : runEvents st (Event.startMap :: q) =
        runEvents (startFrame :: st) q := by
      simp only [runEvents, stepEvent, handle_start_map, handle_start]
      rw [if_neg (by omega)]
    have hnef : ∀ x ∈ l, (Event.mapKey x.1 :: x.2.1) ≠ ([] : List Event) := by
      intro x hx
      simp
    rcases isStart_append_elim hq with hqf | ⟨q', rfl, hq'⟩
    · rcases isStart_flatMap_elim hnef hqf with rfl | ⟨l1, x, l2, r, hl12, rfl, hr, hrne⟩
      · obtain ⟨F', heqB, _, _, _, _, hS'⟩ :=
          run_flat_obj l (fun z hz st0 h0 => ve_run (hl z hz) st0 h0) startFrame st hS0 rfl
        refine ⟨[F'], F' :: st, ?_, rfl, hS'⟩
        rw [hstep1, heqB]
      · obtain ⟨F1, heq1, hk1, hInv1, _, _, hS1⟩ :=
          run_flat_obj l1 (fun z hz st0 h0 => ve_run (hl z (by simp [hl12, hz])) st0 h0)
            startFrame st hS0 rfl
        rcases isStart_cons_elim hr with rfl | ⟨r', rfl, hr'⟩
        · refine ⟨[F1], F1 :: st, ?_, rfl, hS1⟩
          rw [hstep1, List.append_nil]
          exact heq1
        · by_cases hfull : r' = x.2.1
          · exact absurd (by rw [hfull]) hrne
          obtain ⟨Fa, heqa, hka, hcnta, hela, hInva, _⟩ :=
            add_element_app F1 st (Term.bin (strncpyBytes x.1)) (hS1 F1 (by simp)) hk1
          have hstepk : stepEvent (F1 :: st) (Event.mapKey x.1) =
              some (1, { Fa with key := true } :: st) := by
            simp only [stepEvent, handle_map_key, heqa]
          have hSa : SInv ({ Fa with key := true } :: st) := by
            intro z hz
            rcases List.mem_cons.mp hz with rfl | hz
            · refine ⟨hInva.1, hInva.2.1, hInva.2.2.1, fun _ => ?_⟩
              simp only
              omega
            · exact hS1 z (by simp [hz])
          obtain ⟨ex', st', heq2, rfl, hS2⟩ :=
            ih x (by simp [hl12]) ({ Fa with key := true } :: st) hSa r' hr' hfull
          refine ⟨ex' ++ [{ Fa with key := true }], ex' ++ ({ Fa with key := true } :: st),
            ?_, by simp, hS2⟩
          rw [hstep1, runEvents_append, heq1]
          simp only [Option.some_bind]
          show runEvents (F1 :: st) (Event.mapKey x.1 :: r') = _
          simp only [runEvents, hstepk]
          rw [if_neg (by omega)]
          exact heq2
    · rcases isStart_singleton hq' with rfl | rfl
      · obtain ⟨F', heqB, _, _, _, _, hS'⟩ :=
          run_flat_obj l (fun z hz st0 h0 => ve_run (hl z hz) st0 h0) startFrame st hS0 rfl
        refine ⟨[F'], F' :: st, ?_, rfl, hS'⟩
        rw [hstep1, List.append_nil]
        exact heqB
      · exact absurd rfl hqne

/-! ### Cleanup, root frame and string-copy characterizations -/

/-- The `cleanup_containers` loop releases exactly every frame but the
last one (the synthetic root, whose `next` pointer is null). -/
theorem cleanup_containers_eq_dropLast : ∀ l : Stack, cleanup_containers l = l.dropLast := by
  intro l
  induction l with
  | nil => rfl
  | cons c rest ih =>
    cases rest with
    | nil => rfl
    | cons d rest' =>
      show c :: cleanup_containers (d :: rest') = c :: (d :: rest').dropLast
      rw [ih]

/-- The root frame of a stack obtained by piling frames on a root. -/
theorem rootOf_concat (ex : Stack) (r : container_t) : rootOf (ex ++ [r]) = r := by
  simp [rootOf, List.getLastD_concat]

/-- The copy never changes the byte count. -/
theorem strncpyBytes_length : ∀ s : List Nat, (strncpyBytes s).length = s.length := by
  intro s
  induction s with
  | nil => rfl
  | cons b bs ih =>
    by_cases hb : b = 0
    · simp [strncpyBytes, hb]
    · simp [strncpyBytes, hb, ih]

/-- Shape of the copied bytes: the payload up to (excluding) its first
zero byte, padded with zero bytes to the declared length. -/
theorem strncpyBytes_shape : ∀ s : List Nat,
    strncpyBytes s = s.takeWhile (fun b => b ≠ 0) ++
      List.replicate (s.length - (s.takeWhile (fun b => b ≠ 0)).length) 0 := by
  intro s
  induction s with
  | nil => rfl
  | cons b bs ih =>
    by_cases hb : b = 0
    · subst hb
      simp [strncpyBytes, List.takeWhile_cons]
    · simp [strncpyBytes, hb, ih]

/-- Payloads without an embedded zero byte are copied exactly. -/
theorem strncpyBytes_exact : ∀ s : List Nat, (∀ b ∈ s, b ≠ 0) → strncpyBytes s = s := by
  intro s
  induction s with
  | nil => intro _; rfl
  | cons b bs ih =>
    intro h
    have hb : b ≠ 0 := h b (by simp)
    simp only [strncpyBytes, if_neg hb]
    rw [ih (fun x hx => h x (by simp [hx]))]

/-- The copy is an exact copy of the payload precisely when every byte
from the first zero byte onward is zero. -/
theorem strncpyBytes_eq_self_iff (s : List Nat) :
    strncpyBytes s = s ↔ ∀ b ∈ s.dropWhile (fun x => x ≠ 0), b = 0 := by
  have hsplit : s.takeWhile (fun b => b ≠ 0) ++ s.dropWhile (fun b => b ≠ 0) = s :=
    List.takeWhile_append_dropWhile _ _
  have hlen : (s.takeWhile (fun b => b ≠ 0)).length +
      (s.dropWhile (fun b => b ≠ 0)).length = s.length := by
    rw [← List.length_append, hsplit]
  constructor
  · intro h
    have h2 : s.takeWhile (fun b => b ≠ 0) ++
        List.replicate (s.length - (s.takeWhile (fun b => b ≠ 0)).length) 0 =
        s.takeWhile (fun b => b ≠ 0) ++ s.dropWhile (fun b => b ≠ 0) := by
      rw [← strncpyBytes_shape, h, hsplit]
    have h3 := List.append_cancel_left h2
    intro b hb
    rw [← h3] at hb
    exact List.eq_of_mem_replicate hb
  · intro h
    rw [strncpyBytes_shape]
    have h3 : List.replicate (s.length - (s.takeWhile (fun b => b ≠ 0)).length) 0 =
        s.dropWhile (fun b => b ≠ 0) := by
      symm
      rw [List.eq_replicate_iff]
      exact ⟨by omega, h⟩
    rw [h3, hsplit]

theorem getD_take (l : List α) (n i : Nat) (d : α) (h : i < n) :
    (l.take n).getD i d = l.getD i d := by
  have h1 : (l.take n)[i]? = l[i]? := List.getElem?_take_of_lt h
  simp [List.getD_eq_getElem?_getD, h1]

/-! ### Claims -/

/-- C1: for every append of a value into an open container: if the
container's pending-key flag is set, the most recently appended slot
(the key) is replaced in place by the pair (key, value), the element
count does not change and the flag is cleared; otherwise the value is
stored as a new slot and the element count increases by exactly one. -/
theorem claim_C1 (c : container_t) (rest : Stack) (t : Term) (h : CInv c) :
    (c.key = true →
      ∃ c', add_element (c :: rest) t = c' :: rest ∧
        c'.count = c.count ∧ c'.key = false ∧
        c'.array.getD (c.count - 1) junkTerm =
          Term.tuple2 (c.array.getD (c.count - 1) junkTerm) t ∧
        ∀ i, i < c.count - 1 → c'.array.getD i junkTerm = c.array.getD i junkTerm) ∧
    (c.key = false →
      ∃ c', add_element (c :: rest) t = c' :: rest ∧
        c'.count = c.count + 1 ∧ c'.key = false ∧
        c'.array.getD c.count junkTerm = t ∧
        ∀ i, i < c.count → c'.array.getD i junkTerm = c.array.getD i junkTerm) := by
  have hlen : c.array.length = c.arraysz := h.1
  have hcnt : c.count ≤ c.arraysz := h.2.1
  constructor
  · intro hk
    have hpos : 1 ≤ c.count := h.2.2.2 hk
    obtain ⟨c', heq, hk', hcount, hel, hInv', hsz⟩ := add_element_fuse c rest t h hk
    have hlen' : (c.array.take (c.count - 1)).length = c.count - 1 := by
      simp only [List.length_take]
      omega
    refine ⟨c', heq, hcount, hk', ?_, ?_⟩
    · have h1 : c'.array.getD (c.count - 1) junkTerm =
          (felems c').getD (c.count - 1) junkTerm := by
        rw [felems]
        exact (getD_take _ _ _ _ (by omega)).symm
      rw [h1, hel, List.getD_append_right _ _ _ _ (by omega)]
      rw [show (c.count - 1) - (c.array.take (c.count - 1)).length = 0 by omega]
      rfl
    · intro i hi
      have h1 : c'.array.getD i junkTerm = (felems c').getD i junkTerm := by
        rw [felems]
        exact (getD_take _ _ _ _ (by omega)).symm
      rw [h1, hel, List.getD_append _ _ _ _ (by omega)]
      exact getD_take _ _ _ _ (by omega)
  · intro hk
    obtain ⟨c', heq, hk', hcount, hel, hInv', hsz⟩ := add_element_app c rest t h hk
    have hflen : (felems c).length = c.count := felems_length c h
    refine ⟨c', heq, hcount, hk', ?_, ?_⟩
    · have h1 : c'.array.getD c.count junkTerm = (felems c').getD c.count junkTerm := by
        rw [felems]
        exact (getD_take _ _ _ _ (by omega)).symm
      rw [h1, hel, List.getD_append_right _ _ _ _ (by omega)]
      rw [show c.count - (felems c).length = 0 by omega]
      rfl
    · intro i hi
      have h1 : c'.array.getD i junkTerm = (felems c').getD i junkTerm := by
        rw [felems]
        exact (getD_take _ _ _ _ (by omega)).symm
      rw [h1, hel, List.getD_append _ _ _ _ (by omega)]
      exact getD_take _ _ _ _ (by omega)

/-- C1 witness: the concrete fusion of key `<<107>>` with value `5` in
a one-slot container with the pending-key flag set. -/
theorem claim_C1_witness :
    ∃ c', add_element [⟨1, 1, [Term.bin [107]], true⟩] (Term.int 5) = c' :: [] ∧
      c'.count = 1 ∧ c'.key = false ∧
      c'.array.getD 0 junkTerm = Term.tuple2 (Term.bin [107]) (Term.int 5) ∧
      ∀ i, i < 0 → c'.array.getD i junkTerm =
        ([Term.bin [107]] : List Term).getD i junkTerm := by
  exact (claim_C1 ⟨1, 1, [Term.bin [107]], true⟩ [] (Term.int 5) (by decide)).1 rfl

/-- C5 counterexample: closing a map whose pending-key flag is still
set (events `startMap`, `mapKey`, `endMap`) succeeds — the run
completes without any error or cancellation and the decoder delivers a
value that contains the raw unpaired key slot, instead of failing. -/
theorem claim_C5_counterexample :
    runEvents initStack [Event.startMap, Event.mapKey [107], Event.endMap] =
      some [⟨1, 1, [Term.list [Term.bin [107]]], false⟩] ∧
    decodeEvents [Event.startMap, Event.mapKey [107], Event.endMap] =
      some (Term.list [Term.bin [107]]) := ⟨rfl, rfl⟩

/-- C5 amended: `handle_end` does not inspect the popped container's
pending-key flag: closing a container whose flag is still set succeeds
(return code 1) and delivers the container's slots — including the raw
unpaired key — to the parent; rejecting such sequences is left to the
trusted event source. -/
theorem claim_C5_amended (c : container_t) (rest : Stack) (hk : c.key = true) :
    handle_end (c :: rest) =
      some (1, add_element rest (Term.list (c.array.take c.count))) := rfl

/-- C5 amended witness: closing the concrete one-entry map frame with
its pending-key flag set, above a root frame. -/
theorem claim_C5_amended_witness :
    handle_end [⟨1, 16, [Term.bin [107]], true⟩, initRoot] =
      some (1, [⟨1, 1, [Term.list [Term.bin [107]]], false⟩]) := by
  exact claim_C5_amended ⟨1, 16, [Term.bin [107]], true⟩ [initRoot] rfl

/-- C6 counterexample: `handle_map_key` invoked with a failed binary
allocation (`allocOk = false`) still reports success (return code 1)
instead of detecting and reporting the allocation failure. -/
theorem claim_C6_counterexample :
    (handle_map_key [107] false initStack).map Prod.fst = some 1 := rfl

/-- C6 amended: every builder callback returns a success/failure code,
but only `handle_string` checks an allocation: it returns 0 exactly
when its binary allocation fails.  `handle_map_key`'s binary
allocation, `handle_start`'s container and array allocations and the
`add_element` growth reallocation are unchecked — those callbacks
return success regardless of the allocation outcome. -/
theorem claim_C6_amended (s : List Nat) (st : Stack) (a f g : Bool) (i : Int) (d : Nat)
    (b : Bool) :
    (handle_string s true st).1 = 1 ∧ (handle_string s false st).1 = 0 ∧
    (∀ r, handle_map_key s a st = some r → r.1 = 1) ∧
    (handle_start f g st).1 = 1 ∧
    (handle_null st).1 = 1 ∧ (handle_boolean b st).1 = 1 ∧
    (handle_integer i st).1 = 1 ∧ (handle_double d st).1 = 1 ∧
    (∀ r, handle_end st = some r → r.1 = 1) := by
  refine ⟨rfl, rfl, ?_, rfl, rfl, rfl, rfl, rfl, ?_⟩
  · intro r hr
    simp only [handle_map_key] at hr
    rcases hM : add_element st (Term.bin (strncpyBytes s)) with _ | ⟨c, rest⟩
    · rw [hM] at hr
      cases hr
    · rw [hM] at hr
      cases hr
      rfl
  · intro r hr
    rcases st with _ | ⟨c, rest⟩
    · cases hr
    · simp only [handle_end] at hr
      cases hr
      rfl

/-- C6 amended witness: the string callback failing on a failed
allocation, and the map-key callback reporting success at a concrete
input. -/
theorem claim_C6_amended_witness :
    (handle_string [107] false initStack).1 = 0 ∧
    ((1 : Int), ([⟨1, 1, [Term.bin [107]], true⟩] : Stack)).1 = 1 := by
  have h := claim_C6_amended [107] initStack true true true 0 0 true
  exact ⟨h.2.1, h.2.2.1 ((1 : Int), ([⟨1, 1, [Term.bin [107]], true⟩] : Stack)) rfl⟩

/-- C7 counterexample: decoding an empty JSON array and an empty JSON
object produces the same value (the empty Erlang list) — the two
container kinds are not distinguishable in the decoded result. -/
theorem claim_C7_counterexample :
    decodeEvents [Event.startArray, Event.endArray] =
      decodeEvents [Event.startMap, Event.endMap] ∧
    decodeEvents [Event.startArray, Event.endArray] = some (Term.list []) := ⟨rfl, rfl⟩

/-- C7 amended: a closed JSON array and a closed JSON object are both
delivered as the same ordered-sequence constructor (an Erlang list;
object entries are key/value 2-tuples inside it).  The end-array and
end-map callbacks are the same function, the container kind is not
recorded in the result, and the empty array and the empty object decode
to the same value. -/
theorem claim_C7_amended :
    (∀ st : Stack, handle_end_array st = handle_end_map st) ∧
    decodeEvents [Event.startArray, Event.endArray] = some (Term.list []) ∧
    decodeEvents [Event.startMap, Event.endMap] = some (Term.list []) :=
  ⟨fun st => rfl, rfl, rfl⟩

/-- C8 counterexample: the payload `[65, 0]` contains an embedded zero
byte before its declared length, yet the stored string value is an
exact copy of the payload — `strncpy` pads the remainder with zero
bytes, which here reproduces the original bytes. -/
theorem claim_C8_counterexample :
    decodeEvents [Event.string [65, 0]] = some (Term.bin [65, 0]) ∧
    strncpyBytes [65, 0] = [65, 0] := ⟨rfl, rfl⟩

/-- C8 amended: the stored string value is the payload truncated at its
first zero byte and padded with zero bytes to the declared length; it
is an exact copy of the payload precisely when every byte from the
first zero byte onward is zero (in particular, payloads with no
embedded zero byte are copied exactly). -/
theorem claim_C8_amended (s : List Nat) :
    decodeEvents [Event.string s] = some (Term.bin (strncpyBytes s)) ∧
    strncpyBytes s = s.takeWhile (fun b => b ≠ 0) ++
      List.replicate (s.length - (s.takeWhile (fun b => b ≠ 0)).length) 0 ∧
    ((∀ b ∈ s, b ≠ 0) → strncpyBytes s = s) ∧
    (strncpyBytes s = s ↔ ∀ b ∈ s.dropWhile (fun x => x ≠ 0), b = 0) :=
  ⟨rfl, strncpyBytes_shape s, strncpyBytes_exact s, strncpyBytes_eq_self_iff s⟩

/-- C8 amended witness: a zero-free payload is copied exactly. -/
theorem claim_C8_amended_witness : strncpyBytes [65, 66] = [65, 66] := by
  exact (claim_C8_amended [65, 66]).2.2.1 (by decide)

/-- C2: for every document containing a JSON object in which the same
key appears twice (possibly with different values, scalar or nested),
the decoded object holds two separate entries for that key, in document
order; no entry overwrites another, and entry order equals document
order. -/
theorem claim_C2 (pre mid post : List (List Nat × Int)) (k : List Nat)
    (evsA evsB : List Event) (tA tB : Term) (hA : VE evsA tA) (hB : VE evsB tB) :
    decodeEvents
      (Event.startMap ::
        (intEntryEvents pre ++ Event.mapKey k :: evsA ++ intEntryEvents mid ++
          Event.mapKey k :: evsB ++ intEntryEvents post) ++ [Event.endMap]) =
    some (Term.list (objEntries pre ++ pairTerm k tA :: objEntries mid ++
      pairTerm k tB :: objEntries post)) := by
  have hmem : ∀ p ∈ (intEntryChunks pre ++ (k, evsA, tA) :: intEntryChunks mid ++
      (k, evsB, tB) :: intEntryChunks post), VE p.2.1 p.2.2 := by
    intro p hp
    simp only [intEntryChunks] at hp
    rcases List.mem_append.mp hp with h1 | h2
    · rcases List.mem_append.mp h1 with h3 | h4
      · obtain ⟨q, hq, rfl⟩ := List.mem_map.mp h3
        exact VE.int q.2
      · rcases List.mem_cons.mp h4 with rfl | h5
        · exact hA
        · obtain ⟨q, hq, rfl⟩ := List.mem_map.mp h5
          exact VE.int q.2
    · rcases List.mem_cons.mp h2 with rfl | h6
      · exact hB
      · obtain ⟨q, hq, rfl⟩ := List.mem_map.mp h6
        exact VE.int q.2
  have hd := decode_correct (VE.obj _ hmem)
  simpa [intEntryChunks, intEntryEvents, objEntries, pairTerm, List.flatMap_append,
    List.flatMap_cons, List.flatMap_map, List.map_append, List.map_map,
    Function.comp] using hd

/-- C2 witness: the two-entry document with key `<<107>>` bound to 1
and then to 2 decodes to both entries, in document order. -/
theorem claim_C2_witness :
    decodeEvents [Event.startMap, Event.mapKey [107], Event.integer 1,
        Event.mapKey [107], Event.integer 2, Event.endMap] =
      some (Term.list [Term.tuple2 (Term.bin [107]) (Term.int 1),
        Term.tuple2 (Term.bin [107]) (Term.int 2)]) := by
  have h := claim_C2 [] [] [] [107] [Event.integer 1] [Event.integer 2]
    (Term.int 1) (Term.int 2) (VE.int 1) (VE.int 2)
  simpa [intEntryEvents, objEntries, pairTerm] using h

/-- C3: every container pushed by a start event begins with capacity
exactly 16 (and zero elements); an append doubles the capacity exactly
when the element count has reached it and leaves it unchanged
otherwise; the synthetic root frame has fixed capacity 1 and still has
capacity 1 at every point of the decode of any well-formed document. -/
theorem claim_C3 :
    (∀ (f g : Bool) (st : Stack), (handle_start f g st).2 = startFrame :: st ∧
      startFrame.arraysz = 16 ∧ startFrame.count = 0) ∧
    (∀ (c : container_t) (rest : Stack) (t : Term), ∃ c',
      add_element (c :: rest) t = c' :: rest ∧
        c'.arraysz = (if c.arraysz ≤ c.count then c.arraysz * 2 else c.arraysz)) ∧
    (initRoot.arraysz = 1 ∧ initStack = [initRoot]) ∧
    (∀ (evs : List Event) (t : Term), VE evs t →
      ∀ (p : List Event) (st' : Stack), IsStart p evs →
        runEvents initStack p = some st' → (rootOf st').arraysz = 1) := by
  refine ⟨fun f g st => ⟨rfl, rfl, rfl⟩, ?_, ⟨rfl, rfl⟩, ?_⟩
  · intro c rest t
    by_cases hgk : (growFrame c).key = true
    · refine ⟨{ growFrame c with
          array := ((growFrame c).array.set ((growFrame c).count - 1)
            (Term.tuple2 ((growFrame c).array.getD ((growFrame c).count - 1) junkTerm) t)),
          key := false }, ?_, ?_⟩
      · simp only [add_element]
        rw [hgk]
        simp
      · simp [growFrame_arraysz]
    · rw [Bool.not_eq_true] at hgk
      refine ⟨{ growFrame c with
          array := ((growFrame c).array.set (growFrame c).count t),
          count := ((growFrame c).count + 1) }, ?_, ?_⟩
      · simp only [add_element]
        rw [hgk]
        simp
      · simp [growFrame_arraysz]
  · intro evs t hve p st' hp hrun
    by_cases hfull : p = evs
    · subst hfull
      rw [ve_run hve initStack SInv_initStack] at hrun
      injection hrun with h1
      rw [← h1]
      rfl
    · obtain ⟨ex, st'', heq, rfl, _⟩ := ve_run_upto hve initStack SInv_initStack p hp hfull
      rw [heq] at hrun
      injection hrun with h1
      rw [← h1]
      rw [show (ex ++ initStack : Stack) = ex ++ [initRoot] from rfl, rootOf_concat]
      rfl

/-- C3 witness: decoding the document `null` leaves the root frame at
capacity 1. -/
theorem claim_C3_witness :
    (rootOf [⟨1, 1, [Term.atom "undefined"], false⟩]).arraysz = 1 := by
  exact claim_C3.2.2.2 [Event.null] (Term.atom "undefined") VE.null [Event.null]
    [⟨1, 1, [Term.atom "undefined"], false⟩] (isStart_refl _) rfl

/-- C4: whenever the event source reports a failure after delivering a
run of events, `parse_json` walks and releases every container frame on
the stack except the synthetic root, the caller receives only the error
tuple (never a partially built ok value), and the error message is
truncated to at most `ERR_BUF_SIZE - 1` bytes. -/
theorem claim_C4 (b m : List Nat) (evs : List Event) (src : List Nat → SrcRun)
    (st fs : Stack) (rootc : container_t)
    (hsrc : src b = ⟨evs, some m⟩)
    (hrun : runEvents initStack evs = some st)
    (hst : st = fs ++ [rootc]) :
    parse_json (src b) = some (ParseOut.err (errTrunc m) fs) ∧
    decode_1 [ErlArg.bin b] src = some (DecodeResult.error (errTrunc m)) ∧
    (errTrunc m).length ≤ ERR_BUF_SIZE - 1 ∧
    cleanup_containers st = fs := by
  have hclean : cleanup_containers st = fs := by
    rw [cleanup_containers_eq_dropLast, hst, List.dropLast_concat]
  have hparse : parse_json (src b) = some (ParseOut.err (errTrunc m) fs) := by
    simp only [parse_json, hsrc, hrun, hclean]
  refine ⟨hparse, ?_, ?_, hclean⟩
  · simp only [decode_1, hparse]
  · simp only [errTrunc, List.length_take]
    omega

/-- C4 witness: a source failing with message `"bad"` after delivering
one `startArray` event; the pushed frame is released, the root frame is
not, and the decoder returns only the error. -/
theorem claim_C4_witness :
    parse_json ⟨[Event.startArray], some [98, 97, 100]⟩ =
      some (ParseOut.err (errTrunc [98, 97, 100]) [startFrame]) ∧
    decode_1 [ErlArg.bin [91]] (fun _ => ⟨[Event.startArray], some [98, 97, 100]⟩) =
      some (DecodeResult.error (errTrunc [98, 97, 100])) ∧
    (errTrunc [98, 97, 100]).length ≤ ERR_BUF_SIZE - 1 ∧
    cleanup_containers [startFrame, initRoot] = [startFrame] := by
  exact claim_C4 [91] [98, 97, 100] [Event.startArray]
    (fun _ => ⟨[Event.startArray], some [98, 97, 100]⟩)
    [startFrame, initRoot] [startFrame] initRoot rfl rfl rfl

/-- C9: a call of `decode_1` whose arguments are not exactly one binary
raises `badarg`, independently of the event source — no parsing and no
container-stack work takes place. -/
theorem claim_C9 (args : List ErlArg) (src : List Nat → SrcRun)
    (h : ∀ b : List Nat, args ≠ [ErlArg.bin b]) :
    decode_1 args src = some DecodeResult.badarg := by
  rcases args with _ | ⟨a, rest⟩
  · rfl
  rcases a with b | _
  · rcases rest with _ | ⟨a2, rest2⟩
    · exact absurd rfl (h b)
    · rfl
  · rcases rest with _ | ⟨a2, rest2⟩ <;> rfl

/-- C9 witness: calling decode with a single non-binary argument
returns `badarg`. -/
theorem claim_C9_witness :
    decode_1 [ErlArg.nonbin] (fun _ => ⟨[], none⟩) = some DecodeResult.badarg := by
  exact claim_C9 [ErlArg.nonbin] (fun _ => ⟨[], none⟩) (fun b hb => by simp at hb)

/-- C10: every builder callback preserves the per-frame invariant
(`count ≤ capacity`, capacity positive, array of exactly `capacity`
slots, and a set pending-key flag implies `count ≥ 1`); consequently
the in-place key/value fusion index `count - 1` always addresses an
existing initialized slot inside the frame's element storage. -/
theorem claim_C10 (st : Stack) (h : SInv st) :
    (∀ (e : Event) (rc : Int) (st' : Stack), stepEvent st e = some (rc, st') → SInv st') ∧
    (∀ (c : container_t) (rest : Stack), st = c :: rest → c.key = true →
      c.count - 1 < c.count ∧ c.count ≤ c.array.length ∧ c.count ≤ c.arraysz) := by
  refine ⟨SInv_step h, ?_⟩
  intro c rest hst hk
  have hc : CInv c := h c (by rw [hst]; simp)
  have hpos : 1 ≤ c.count := hc.2.2.2 hk
  refine ⟨by omega, ?_, hc.2.1⟩
  rw [hc.1]
  exact hc.2.1

/-- C10 witness: one step (the `null` callback) from the initial stack
lands in a stack still satisfying the invariant. -/
theorem claim_C10_witness :
    SInv [⟨1, 1, [Term.atom "undefined"], false⟩] := by
  exact (claim_C10 initStack SInv_initStack).1 Event.null 1
    [⟨1, 1, [Term.atom "undefined"], false⟩] rfl

end Yajler
